import Mathlib

/-!
# Verification of `clean_text.py` (TXT-Novel-Formatting)

A shallow embedding of the text-cleaning tool `src/clean_text.py`.
Strings are modelled as `List Char` (Unicode scalar values); the
regex whitelist is modelled as a boolean predicate on characters,
`pattern.sub('', line)` as a character-by-character scan, `str.strip()`
as dropping leading and trailing Python-whitespace characters, file
iteration as universal-newline line splitting, and `os.path.splitext`
following CPython's `genericpath._splitext` with posix separator.
-/

namespace CleanText

/-- The code points accepted by Python's `\s` class on `str` patterns,
which coincides with `str.isspace` (`Py_UNICODE_ISSPACE`): `0x09`–`0x0D`,
`0x1C`–`0x1F`, space, NEL, NBSP, Ogham space, the `0x2000`–`0x200A` range,
line/paragraph separators, narrow no-break space, medium mathematical
space, and ideographic space. -/
def pyIsSpace (c : Char) : Bool :=
  let n := c.toNat
  (0x09 ≤ n && n ≤ 0x0D) || (0x1C ≤ n && n ≤ 0x1F) || n == 0x20 ||
  n == 0x85 || n == 0xA0 || n == 0x1680 ||
  (0x2000 ≤ n && n ≤ 0x200A) || n == 0x2028 || n == 0x2029 ||
  n == 0x202F || n == 0x205F || n == 0x3000

/-- The punctuation code points listed one by one inside the character
class of the compiled regex, in source order:
`,.!?;:，。！？；：'"“”‘’、~《》〈〉【】〖〗…—-·`. -/
def punctCodes : List Nat :=
  [0x2C, 0x2E, 0x21, 0x3F, 0x3B, 0x3A,
   0xFF0C, 0x3002, 0xFF01, 0xFF1F, 0xFF1B, 0xFF1A,
   0x27, 0x22, 0x201C, 0x201D, 0x2018, 0x2019,
   0x3001, 0x7E, 0x300A, 0x300B, 0x3008, 0x3009,
   0x3010, 0x3011, 0x3016, 0x3017,
   0x2026, 0x2014, 0x2D, 0xB7]

/-- Membership in the character class of
`re.compile(r'[^一-龥a-zA-Z0-9\s,.!?;:，。！？；：\'"“”‘’、~《》〈〉【】〖〗…—\-·]')`:
the regex deletes exactly the characters on which this is `false`. -/
def inWhitelist (c : Char) : Bool :=
  let n := c.toNat
  (0x4E00 ≤ n && n ≤ 0x9FA5) ||
  (0x61 ≤ n && n ≤ 0x7A) || (0x41 ≤ n && n ≤ 0x5A) ||
  (0x30 ≤ n && n ≤ 0x39) ||
  pyIsSpace c ||
  punctCodes.contains n

/-- `pattern.sub('', line)`: scan the line character by character and
delete every character matched by the (negated-class) pattern, keeping
the rest in order. -/
def patternSub : List Char → List Char
  | [] => []
  | c :: cs => if inWhitelist c then c :: patternSub cs else patternSub cs

/-- `str.strip()`: remove leading and trailing Python-whitespace
characters (the same set as `pyIsSpace`, since `str.isspace` and the
`str`-pattern `\s` class agree). -/
def pyStrip (s : List Char) : List Char :=
  (s.rdropWhile pyIsSpace).dropWhile pyIsSpace

/-- The loop body of `clean_text_file` for one line:
`cleaned_line = pattern.sub('', line)`, `stripped_line = cleaned_line.strip()`,
and the line is written only `if stripped_line:` (non-empty). -/
def filterLine (s : List Char) : Option (List Char) :=
  if (pyStrip (patternSub s)).isEmpty then none
  else some (pyStrip (patternSub s))

/-- The `for line in in_file:` loop over the decoded lines, collecting
the lines that are written. -/
def cleanLines : List (List Char) → List (List Char)
  | [] => []
  | l :: ls =>
    if (pyStrip (patternSub l)).isEmpty then cleanLines ls
    else pyStrip (patternSub l) :: cleanLines ls

/-- Universal-newline translation performed by `open(..., 'r')` with the
default `newline=None`: `\r\n` and lone `\r` both become `\n`. -/
def translateNewlines : List Char → List Char
  | [] => []
  | '\r' :: '\n' :: rest => '\n' :: translateNewlines rest
  | '\r' :: rest => '\n' :: translateNewlines rest
  | c :: rest => c :: translateNewlines rest

/-- Prepend a character to the first line of a line list (it belongs to
the current line); with no lines yet it starts the only line. -/
def consHead (c : Char) : List (List Char) → List (List Char)
  | [] => [[c]]
  | l :: ls => (c :: l) :: ls

/-- Split translated text into lines the way `for line in f` yields them:
each line keeps its trailing `\n`; a final line without a terminator is
yielded as-is. -/
def splitKeepNl : List Char → List (List Char)
  | [] => []
  | c :: rest =>
    if c = '\n' then ['\n'] :: splitKeepNl rest
    else consHead c (splitKeepNl rest)

/-- The lines `clean_text_file` iterates over, for a given decoded file
content. -/
def splitLines (s : List Char) : List (List Char) :=
  splitKeepNl (translateNewlines s)

/-- The full content written to the output file: for each kept line,
`out_file.write(stripped_line + '\n')`, with `newline='\n'` so the `\n`
is emitted verbatim. -/
def outputText (input : List Char) : List Char :=
  (cleanLines (splitLines input)).foldr (fun l acc => l ++ '\n' :: acc) []

/-- `s.rfind(c)` on a character: the highest index at which `c` occurs,
or `-1` when it does not occur. -/
def rfindIdx (c : Char) : List Char → Int
  | [] => -1
  | x :: xs =>
    let r := rfindIdx c xs
    if r ≥ 0 then r + 1 else if x = c then 0 else -1

/-- The scan of CPython's `genericpath._splitext` while-loop: is there a
non-dot character at an index in `[lo, hi)`? The loop returns the split
exactly when such an index exists. -/
def hasNonDot (p : List Char) (lo hi : Nat) : Bool :=
  (List.range' lo (hi - lo)).any fun i => p.getD i '.' ≠ '.'

/-- `os.path.splitext` (posix: `sep = '/'`, no `altsep`, `extsep = '.'`):
split at the last dot provided it lies after the last separator and some
non-dot character of the basename precedes it (leading dots never start
an extension). -/
def splitext (p : List Char) : List Char × List Char :=
  if rfindIdx '.' p > rfindIdx '/' p then
    if hasNonDot p (rfindIdx '/' p + 1).toNat (rfindIdx '.' p).toNat then
      (p.take (rfindIdx '.' p).toNat, p.drop (rfindIdx '.' p).toNat)
    else (p, [])
  else (p, [])

/-- `output_file_path = f"{base_name}_cleaned{ext}"`. -/
def outputPath (p : List Char) : List Char :=
  (splitext p).1 ++ "_cleaned".toList ++ (splitext p).2

/-- The punctuation marks exactly as the specification's whitelist rule
enumerates them, in its order: `, . ! ? ; : ' "` the curly quotes
`“ ” ‘ ’`, the full-width forms `， 。 ！ ？ ； ：`, the marks
`、 《 》 〈 〉 【 】 〖 〗`, the ellipsis `…`, the em dash `—`, the
hyphen `-` and the middle dot `·`. This list follows the spec's words,
for comparison with the source-derived `punctCodes`. -/
def specPunctCodes : List Nat :=
  [0x2C, 0x2E, 0x21, 0x3F, 0x3B, 0x3A, 0x27, 0x22,
   0x201C, 0x201D, 0x2018, 0x2019,
   0xFF0C, 0x3002, 0xFF01, 0xFF1F, 0xFF1B, 0xFF1A,
   0x3001, 0x300A, 0x300B, 0x3008, 0x3009,
   0x3010, 0x3011, 0x3016, 0x3017,
   0x2026, 0x2014, 0x2D, 0xB7]

/-- The whitelist membership rule as the specification states it: the
range U+4E00–U+9FA5, ASCII letters, ASCII digits, Unicode whitespace,
or one of exactly the punctuation marks of `specPunctCodes`. This
definition follows the spec's words, for comparison with the
source-derived `inWhitelist`. -/
def specWhitelist (c : Char) : Bool :=
  let n := c.toNat
  (0x4E00 ≤ n && n ≤ 0x9FA5) ||
  (0x41 ≤ n && n ≤ 0x5A) || (0x61 ≤ n && n ≤ 0x7A) ||
  (0x30 ≤ n && n ≤ 0x39) ||
  pyIsSpace c ||
  specPunctCodes.contains n

/-! ## Lemmas about the character-removal pass -/

theorem patternSub_eq_filter (s : List Char) : patternSub s = s.filter inWhitelist := by
  induction s with
  | nil => rfl
  | cons c cs ih =>
    by_cases h : inWhitelist c = true <;> simp [patternSub, List.filter_cons, h, ih]

theorem mem_patternSub {c : Char} {s : List Char} (h : c ∈ patternSub s) :
    c ∈ s ∧ inWhitelist c = true := by
  rw [patternSub_eq_filter] at h
  exact List.mem_filter.mp h

theorem patternSub_append (a b : List Char) :
    patternSub (a ++ b) = patternSub a ++ patternSub b := by
  simp [patternSub_eq_filter, List.filter_append]

theorem patternSub_of_forall {t : List Char} (h : ∀ c ∈ t, inWhitelist c = true) :
    patternSub t = t := by
  rw [patternSub_eq_filter]
  exact List.filter_eq_self.mpr h

/-! ## Lemmas about stripping -/

theorem mem_pyStrip {c : Char} {s : List Char} (h : c ∈ pyStrip s) : c ∈ s := by
  unfold pyStrip at h
  have h1 : c ∈ s.rdropWhile pyIsSpace :=
    (List.dropWhile_suffix pyIsSpace).sublist.subset h
  exact (List.rdropWhile_prefix pyIsSpace s).sublist.subset h1

theorem pyStrip_eq_nil_of_forall_space {s : List Char}
    (h : ∀ c ∈ s, pyIsSpace c = true) : pyStrip s = [] := by
  unfold pyStrip
  rw [List.rdropWhile_eq_nil_iff.mpr h]
  rfl

theorem pyStrip_concat_space (x : List Char) {c : Char} (h : pyIsSpace c = true) :
    pyStrip (x ++ [c]) = pyStrip x := by
  unfold pyStrip
  rw [List.rdropWhile_concat_pos _ _ _ h]

theorem pyStrip_rdropWhile (s : List Char) :
    (pyStrip s).rdropWhile pyIsSpace = pyStrip s := by
  rw [List.rdropWhile_eq_self_iff]
  intro hl
  have hu : s.rdropWhile pyIsSpace ≠ [] := by
    intro h0
    apply hl
    unfold pyStrip
    rw [h0]
    rfl
  have hlast := List.rdropWhile_last_not pyIsSpace s hu
  obtain ⟨t, ht⟩ := List.dropWhile_suffix (l := s.rdropWhile pyIsSpace) pyIsSpace
  have hps : pyStrip s = (s.rdropWhile pyIsSpace).dropWhile pyIsSpace := rfl
  have e1 := List.getLast?_eq_getLast_of_ne_nil hu
  have e2 := List.getLast?_eq_getLast_of_ne_nil hl
  have e3 : (s.rdropWhile pyIsSpace).getLast? = (pyStrip s).getLast? := by
    conv_lhs => rw [← ht]
    rw [← hps]
    exact List.getLast?_append_of_ne_nil t hl
  rw [e1, e2] at e3
  rw [← Option.some.inj e3]
  exact hlast

theorem pyStrip_idem (s : List Char) : pyStrip (pyStrip s) = pyStrip s := by
  show (List.rdropWhile pyIsSpace (pyStrip s)).dropWhile pyIsSpace = pyStrip s
  rw [pyStrip_rdropWhile]
  show ((s.rdropWhile pyIsSpace).dropWhile pyIsSpace).dropWhile pyIsSpace = pyStrip s
  rw [List.dropWhile_idempotent]
  rfl

/-! ## Lemmas about the line loop -/

theorem filterLine_eq_some {s t : List Char} (h : filterLine s = some t) :
    pyStrip (patternSub s) = t ∧ (pyStrip (patternSub s)).isEmpty = false := by
  unfold filterLine at h
  by_cases he : (pyStrip (patternSub s)).isEmpty = true
  · rw [if_pos he] at h
    exact absurd h (by simp)
  · rw [if_neg he] at h
    exact ⟨Option.some.inj h, Bool.eq_false_iff.mpr he⟩

theorem filterLine_concat_newline (s : List Char) :
    filterLine (s ++ ['\n']) = filterLine s := by
  unfold filterLine
  rw [patternSub_append]
  have h1 : patternSub ['\n'] = ['\n'] := by decide
  rw [h1, pyStrip_concat_space _ (by decide)]

theorem cleanLines_filterMap (ls : List (List Char)) :
    cleanLines ls = ls.filterMap filterLine := by
  induction ls with
  | nil => rfl
  | cons l t ih =>
    rw [List.filterMap_cons]
    unfold cleanLines
    by_cases he : (pyStrip (patternSub l)).isEmpty = true
    · have hf : filterLine l = none := by
        unfold filterLine
        rw [if_pos he]
      rw [if_pos he, hf, ih]
    · have hf : filterLine l = some (pyStrip (patternSub l)) := by
        unfold filterLine
        rw [if_neg he]
      rw [if_neg he, hf, ih]

/-! ## Lemmas about line splitting -/

theorem cr_not_mem_translateNewlines (s : List Char) :
    '\r' ∉ translateNewlines s := by
  induction s using translateNewlines.induct <;>
    simp_all [translateNewlines, eq_comm]

theorem splitKeepNl_shape (s : List Char) :
    ∀ l ∈ splitKeepNl s,
      ∃ core, '\n' ∉ core ∧ (∀ c ∈ core, c ∈ s) ∧
        (l = core ++ ['\n'] ∨ l = core) := by
  induction s with
  | nil =>
    intro l hl
    simp [splitKeepNl] at hl
  | cons c rest ih =>
    intro l hl
    by_cases hc : c = '\n'
    · subst hc
      rw [splitKeepNl, if_pos rfl] at hl
      rcases List.mem_cons.mp hl with h1 | h1
      · exact ⟨[], by simp, by simp, Or.inl (by simp [h1])⟩
      · obtain ⟨core, h2, h3, h4⟩ := ih l h1
        exact ⟨core, h2, fun x hx => List.mem_cons_of_mem _ (h3 x hx), h4⟩
    · rw [splitKeepNl, if_neg hc] at hl
      cases hr : splitKeepNl rest with
      | nil =>
        rw [hr] at hl
        simp [consHead] at hl
        subst hl
        exact ⟨[c], by simp [eq_comm, hc], by simp, Or.inr rfl⟩
      | cons l0 ls0 =>
        rw [hr] at hl
        rcases List.mem_cons.mp hl with h1 | h1
        · have hmem : l0 ∈ splitKeepNl rest := by
            rw [hr]
            exact List.mem_cons_self _ _
          obtain ⟨core, h2, h3, h4⟩ := ih l0 hmem
          refine ⟨c :: core, by simp [eq_comm, hc, h2], ?_, ?_⟩
          · intro x hx
            rcases List.mem_cons.mp hx with rfl | hx
            · exact List.mem_cons_self _ _
            · exact List.mem_cons_of_mem _ (h3 x hx)
          · rcases h4 with h4 | h4
            · exact Or.inl (by simp [h1, h4])
            · exact Or.inr (by simp [h1, h4])
        · obtain ⟨core, h2, h3, h4⟩ := ih l (by rw [hr]; exact List.mem_cons_of_mem _ h1)
          exact ⟨core, h2, fun x hx => List.mem_cons_of_mem _ (h3 x hx), h4⟩

/-! ## Claims -/

/-- C1 counterexample: the character-removal pass retains the tilde `~`
(U+007E), which is not among the punctuation marks the claim
enumerates, so the claimed membership rule is false as stated. -/
theorem whitelist_rule_counterexample :
    inWhitelist '~' = true ∧ specWhitelist '~' = false := by
  decide

/-- C1 (amended): the character-removal pass retains a character iff it
is in U+4E00–U+9FA5, an ASCII letter or digit, Unicode whitespace, one
of the claim's punctuation marks, or additionally the tilde `~`
(U+007E), which the source's character class also lists. -/
theorem whitelist_rule_amended (c : Char) :
    inWhitelist c = (specWhitelist c || c.toNat == 0x7E) := by
  rw [Bool.eq_iff_iff]
  simp [inWhitelist, specWhitelist, punctCodes, specPunctCodes, pyIsSpace]
  omega

/-- C2: a string consisting only of whitespace characters and/or
characters outside the whitelist is suppressed: `filterLine` returns
`none` on it. -/
theorem blank_suppression {s : List Char}
    (h : ∀ c ∈ s, pyIsSpace c = true ∨ inWhitelist c = false) :
    filterLine s = none := by
  have hall : ∀ c ∈ patternSub s, pyIsSpace c = true := by
    intro c hc
    obtain ⟨hcs, hw⟩ := mem_patternSub hc
    rcases h c hcs with hs | hfw
    · exact hs
    · rw [hw] at hfw
      exact absurd hfw (by simp)
  unfold filterLine
  rw [pyStrip_eq_nil_of_forall_space hall]
  rfl

/-- Witness for C2 at the concrete line `"  @@\t"`. -/
theorem blank_suppression_witness :
    filterLine (' ' :: ' ' :: '@' :: '@' :: '\t' :: []) = none :=
  blank_suppression (by decide)

/-- C3: `filterLine` is idempotent — when it produces a line, running
it again on that line returns the line unchanged. -/
theorem filterLine_idempotent {s t : List Char} (h : filterLine s = some t) :
    filterLine t = some t := by
  obtain ⟨ht, hne⟩ := filterLine_eq_some h
  rw [ht] at hne
  have hw : ∀ c ∈ t, inWhitelist c = true := by
    intro c hc
    rw [← ht] at hc
    exact (mem_patternSub (mem_pyStrip hc)).2
  have hstrip : pyStrip t = t := by
    rw [← ht, pyStrip_idem]
  unfold filterLine
  rw [patternSub_of_forall hw, hstrip, hne]
  simp

/-- Witness for C3: `filterLine " a"` produces `"a"`, on which
`filterLine` is the identity. -/
theorem filterLine_idempotent_witness :
    filterLine ('a' :: []) = some ('a' :: []) :=
  filterLine_idempotent (s := ' ' :: 'a' :: []) (by decide)

/-- C4: every character of a non-absent `filterLine` result is in the
whitelist, and the result is never the empty string. -/
theorem whitelist_closure {s t : List Char} (h : filterLine s = some t) :
    (∀ c ∈ t, inWhitelist c = true) ∧ t ≠ [] := by
  obtain ⟨ht, hne⟩ := filterLine_eq_some h
  rw [ht] at hne
  refine ⟨?_, List.isEmpty_eq_false.mp hne⟩
  intro c hc
  rw [← ht] at hc
  exact (mem_patternSub (mem_pyStrip hc)).2

/-- Witness for C4 at the concrete line `"b@"`. -/
theorem whitelist_closure_witness :
    (∀ c ∈ ('b' :: []), inWhitelist c = true) ∧ ('b' :: []) ≠ ([] : List Char) :=
  whitelist_closure (s := 'b' :: '@' :: []) (by decide)

/-- C5: the emitted lines are exactly the in-order `filterMap` of
`filterLine` over the input lines — same relative order, one output
line per non-suppressed input line, absent results skipped. -/
theorem order_preservation (ls : List (List Char)) :
    cleanLines ls = ls.filterMap filterLine :=
  cleanLines_filterMap ls

/-- C6: the character-removal pass never reorders characters — its
result is exactly the subsequence of the input's characters that lie in
the whitelist, in their original order. -/
theorem no_reordering (s : List Char) :
    patternSub s = s.filter inWhitelist ∧ (patternSub s).Sublist s := by
  refine ⟨patternSub_eq_filter s, ?_⟩
  rw [patternSub_eq_filter]
  exact List.filter_sublist s

/-- C9: `filterLine` is total — on every input it yields either `none`
or a non-empty cleaned line; no other outcome exists. -/
theorem filterLine_total (s : List Char) :
    filterLine s = none ∨ ∃ t, filterLine s = some t ∧ t ≠ [] := by
  by_cases he : (pyStrip (patternSub s)).isEmpty = true
  · left
    unfold filterLine
    rw [if_pos he]
  · right
    refine ⟨pyStrip (patternSub s), ?_, ?_⟩
    · unfold filterLine
      rw [if_neg he]
    · intro h0
      apply he
      rw [h0]
      rfl

/-- C7: the output path is obtained by inserting `_cleaned` between the
split base name and extension (whose concatenation restores the input
path); concretely `report.txt` yields `report_cleaned.txt` and the
extension-less `data` yields `data_cleaned`. -/
theorem output_path_suffix :
    (∀ p : List Char,
      (splitext p).1 ++ (splitext p).2 = p ∧
      outputPath p = (splitext p).1 ++ "_cleaned".toList ++ (splitext p).2) ∧
    outputPath "report.txt".toList = "report_cleaned.txt".toList ∧
    outputPath "data".toList = "data_cleaned".toList := by
  refine ⟨fun p => ⟨?_, rfl⟩, by decide, by decide⟩
  unfold splitext
  by_cases h1 : rfindIdx '.' p > rfindIdx '/' p
  · rw [if_pos h1]
    by_cases h2 : hasNonDot p (rfindIdx '/' p + 1).toNat (rfindIdx '.' p).toNat = true
    · rw [if_pos h2]
      exact List.take_append_drop _ p
    · rw [if_neg h2]
      simp
  · rw [if_neg h1]
    simp

/-- C8: the output text is exactly a concatenation of emitted lines,
each terminated by the single character `\n` and containing no other
newline or carriage-return character, whatever terminator convention
(`\n`, `\r\n`, `\r`) the input used. -/
theorem newline_normalization (input : List Char) :
    ∃ ls : List (List Char),
      outputText input = ls.foldr (fun l acc => l ++ '\n' :: acc) [] ∧
      ∀ l ∈ ls, '\n' ∉ l ∧ '\r' ∉ l := by
  refine ⟨cleanLines (splitLines input), rfl, ?_⟩
  intro l hl
  rw [cleanLines_filterMap] at hl
  obtain ⟨raw, hraw, hfl⟩ := List.mem_filterMap.mp hl
  unfold splitLines at hraw
  obtain ⟨core, hnl, hsub, hshape⟩ :=
    splitKeepNl_shape (translateNewlines input) raw hraw
  have hcr : '\r' ∉ core := fun hc => cr_not_mem_translateNewlines input (hsub _ hc)
  have hl_core : filterLine core = some l := by
    rcases hshape with h | h
    · rw [h, filterLine_concat_newline] at hfl
      exact hfl
    · rw [h] at hfl
      exact hfl
  obtain ⟨ht, _⟩ := filterLine_eq_some hl_core
  constructor
  · intro hmem
    rw [← ht] at hmem
    exact hnl (mem_patternSub (mem_pyStrip hmem)).1
  · intro hmem
    rw [← ht] at hmem
    exact hcr (mem_patternSub (mem_pyStrip hmem)).1

/-- C10: a dotfile whose only dot is the leading one is treated as
extension-less, so `.bashrc` yields `.bashrc_cleaned` rather than
`_cleaned.bashrc`. -/
theorem dotfile_output_path :
    outputPath ".bashrc".toList = ".bashrc_cleaned".toList := by
  decide

end CleanText
